import Mathlib

/-!
Shallow embedding of `src/seating.py` (class `SeatingPlanGenerator` and the
session-state handling in `main`), together with proofs of the spec claims.

A pandas row is embedded as a `Record` with one field per column; the two
assignment columns (`"Table No."`, `"Seat No."`), which start as the empty
string and are later set to integers, are embedded as `Option Nat` (`none`
is the blank value).  A DataFrame is a `List Record` in row order.  The
random `sample(frac=1)` shuffle is embedded by quantifying over an arbitrary
permutation of the combined list.
-/

/-- One row of the seating DataFrames: the columns used by `seating.py`. -/
structure Record where
  tableNo : Option Nat
  seatNo : Option Nat
  name : String
  businessTitle : String
  city : String
  businessLine : String
  subBusinessLine : String
  division : String
  jobLevel : String
  gender : String
  eweMgmtTeam : String
  workshopFacilitator : String
deriving DecidableEq, Repr, Inhabited

/-- The `Name` column of a DataFrame. -/
def namesOf (df : List Record) : List String :=
  df.map (fun r => r.name)

/-- Fuel-driven decimal digit expansion, little fuel structure so that the
kernel can evaluate it; `pyDigitsAux n n` is the digit-character list of a
positive `n`, most significant first. -/
def pyDigitsAux : Nat → Nat → List Char
  | _, 0 => []
  | 0, _ + 1 => []
  | fuel + 1, n + 1 => pyDigitsAux fuel ((n + 1) / 10) ++ [Nat.digitChar ((n + 1) % 10)]

/-- Python's `str` on a non-negative integer: decimal, no leading zeros,
`"0"` for zero.  Used to embed the f-string `f"Guest {i}"`. -/
def pyStr (n : Nat) : String :=
  if n = 0 then "0" else (pyDigitsAux n n).asString

/-- `SeatingPlanGenerator.generate_guests` (seating.py lines 23-46): guest
`i` (for `i` in `range(1, num_guests + 1)`) has blank assignment and
descriptive fields, name `f"Guest {i}"`, business title `"Guest"` and
workshop facilitator `"N"`. -/
def mkGuest (i : Nat) : Record :=
  { tableNo := none
    seatNo := none
    name := ("Guest ") ++ pyStr i
    businessTitle := ("Guest")
    city := ("")
    businessLine := ("")
    subBusinessLine := ("")
    division := ("")
    jobLevel := ("")
    gender := ("")
    eweMgmtTeam := ("")
    workshopFacilitator := ("N") }

/-- The guest DataFrame built by `generate_guests` for a given
`num_guests`. -/
def generate_guests (num_guests : Nat) : List Record :=
  (List.range num_guests).map (fun i => mkGuest (i + 1))

/-- Lookup in the insertion-ordered dictionary embedding of
`collections.defaultdict(list)`: a missing key reads as the empty list. -/
def dictGet {α : Type} (d : List (Nat × List α)) (k : Nat) : List α :=
  match d with
  | [] => []
  | (k', v) :: rest => if k' = k then v else dictGet rest k

/-- `tables[k].append(a)` on the defaultdict embedding: append to the entry
for `k`, creating it at the end (insertion order) when absent. -/
def dictAppend {α : Type} (d : List (Nat × List α)) (k : Nat) (a : α) :
    List (Nat × List α) :=
  match d with
  | [] => [(k, [a])]
  | (k', v) :: rest =>
      if k' = k then (k', v ++ [a]) :: rest else (k', v) :: dictAppend rest k a

/-- The loop state of the dealing loop in `create_day2_seating`
(seating.py lines 62-71): the `tables` defaultdict and the running
`table_number`. -/
structure DealState (α : Type) where
  tables : List (Nat × List α)
  tableNumber : Nat

/-- One iteration of the dealing loop (seating.py lines 66-71): append the
record to the current table; advance `table_number` when that table's length
equals `table_size`; wrap `table_number` back to 1 when it exceeds
`num_tables`. -/
def dealStep {α : Type} (num_tables table_size : Nat) (s : DealState α) (a : α) :
    DealState α :=
  let tables := dictAppend s.tables s.tableNumber a
  let t1 :=
    if (dictGet tables s.tableNumber).length = table_size then s.tableNumber + 1
    else s.tableNumber
  let t2 := if num_tables < t1 then 1 else t1
  ⟨tables, t2⟩

/-- The whole dealing loop: fold `dealStep` over the shuffled records
starting from the empty defaultdict and `table_number = 1`; the result is
the `tables` dict in insertion order. -/
def deal {α : Type} (num_tables table_size : Nat) (records : List α) :
    List (Nat × List α) :=
  (records.foldl (dealStep num_tables table_size) ⟨[], 1⟩).tables

/-- The second phase of `create_day2_seating` (seating.py lines 73-82):
iterate the tables dict in insertion order, and within each table give the
members seat numbers 1, 2, ... in deal order, setting `"Table No."` and
`"Seat No."` on a copy of each row. -/
def assignSeats (tables : List (Nat × List Record)) : List Record :=
  (tables.map (fun t =>
    t.2.enum.map (fun p => { p.2 with tableNo := some t.1, seatNo := some (p.1 + 1) }))).flatten

/-- `SeatingPlanGenerator.create_day2_seating` (seating.py lines 48-84) as a
function of the already-shuffled combined DataFrame: deal the rows into
tables, then assign table and seat numbers. -/
def create_day2_seating (num_tables table_size : Nat) (shuffled : List Record) :
    List Record :=
  assignSeats (deal num_tables table_size shuffled)

/-- pandas `Series.unique()`: the distinct values in first-occurrence
order.  `seen` accumulates the values already emitted. -/
def pdUniqueAux (seen : List String) : List String → List String
  | [] => []
  | a :: rest =>
      if seen.contains a then pdUniqueAux seen rest
      else a :: pdUniqueAux (a :: seen) rest

/-- `pdUniqueAux` from an empty `seen` list. -/
def pdUnique (l : List String) : List String :=
  pdUniqueAux [] l

/-- `SeatingPlanGenerator.verify_seating_plan` (seating.py lines 86-105).
`duplicated(subset=['Name'], keep=False)` marks the rows whose name occurs
more than once in the plan, and `.unique()` lists the distinct duplicated
names in first-occurrence order.  The missing-name set difference
`set(day1) - set(day2)` iterates in an unspecified hash order in Python; it
is embedded deterministically in first-occurrence order. -/
def verify_seating_plan (attendees_df day2_df : List Record) : Bool × String :=
  let day2Names := namesOf day2_df
  let dups := pdUnique (day2Names.filter (fun n => 1 < day2Names.count n))
  if dups.isEmpty = false then
    (false, ("Duplicate entries found: ") ++ String.intercalate (", ") dups)
  else
    let missing :=
      pdUnique ((namesOf attendees_df).filter (fun n => !(day2Names.contains n)))
    if missing.isEmpty = false then
      (false, ("Missing participants from Day 1: ") ++ String.intercalate (", ") missing)
    else
      (true, ("Seating plan is valid."))

/-- The generate-button handler in `main` (seating.py lines 136-145): store
the freshly created plan in the session slot, verify it, and reset the slot
to `None` when verification fails.  The previous slot value is always
overwritten. -/
def updateDay2Slot (attendees_df : List Record) (num_tables table_size : Nat)
    (_slot : Option (List Record)) (shuffled : List Record) : Option (List Record) :=
  let day2 := create_day2_seating num_tables table_size shuffled
  if (verify_seating_plan attendees_df day2).1 then some day2 else none

/-! ### Basic facts about the defaultdict embedding -/

/-- Unfolding `allMembers` is stated before its uses. -/
def allMembers {α : Type} (d : List (Nat × List α)) : List α :=
  (d.map Prod.snd).flatten

theorem allMembers_nil {α : Type} : allMembers ([] : List (Nat × List α)) = [] := rfl

theorem allMembers_cons {α : Type} (k : Nat) (v : List α) (rest : List (Nat × List α)) :
    allMembers ((k, v) :: rest) = v ++ allMembers rest := by
  simp [allMembers]

/-- Appending under key `k` extends exactly the entry read by `dictGet` at
`k` (creating it when absent). -/
theorem dictGet_dictAppend_self {α : Type} (d : List (Nat × List α)) (k : Nat) (a : α) :
    dictGet (dictAppend d k a) k = dictGet d k ++ [a] := by
  induction d with
  | nil => simp [dictAppend, dictGet]
  | cons h rest ih =>
      obtain ⟨k', v⟩ := h
      by_cases hk : k' = k
      · subst hk
        simp [dictAppend, dictGet]
      · simp [dictAppend, dictGet, hk, ih]

/-- Appending under key `k` leaves every other key's entry unchanged. -/
theorem dictGet_dictAppend_ne {α : Type} (d : List (Nat × List α)) (k k' : Nat) (a : α)
    (h : k' ≠ k) : dictGet (dictAppend d k a) k' = dictGet d k' := by
  have h2 : ¬ (k = k') := fun hh => h hh.symm
  induction d with
  | nil => simp [dictAppend, dictGet, h2]
  | cons hd rest ih =>
      obtain ⟨k'', v⟩ := hd
      by_cases hk : k'' = k
      · subst hk
        simp [dictAppend, dictGet, h2]
      · simp [dictAppend, dictGet, hk, ih]

/-- Every entry of `dictAppend d k a` is an old entry or the updated entry
for `k`. -/
theorem mem_dictAppend {α : Type} {d : List (Nat × List α)} {k : Nat} {a : α}
    {p : Nat × List α} (hp : p ∈ dictAppend d k a) :
    p ∈ d ∨ p = (k, dictGet d k ++ [a]) := by
  induction d with
  | nil =>
      simp [dictAppend] at hp
      right
      simp [dictGet, hp]
  | cons hd rest ih =>
      obtain ⟨k', v⟩ := hd
      by_cases hk : k' = k
      · subst hk
        have hp' : p = (k', v ++ [a]) ∨ p ∈ rest := by simpa [dictAppend] using hp
        rcases hp' with hp' | hp'
        · right
          simp [dictGet, hp']
        · left
          exact List.mem_cons_of_mem _ hp'
      · have hp' : p = (k', v) ∨ p ∈ dictAppend rest k a := by
          simpa [dictAppend, hk] using hp
        rcases hp' with hp' | hp'
        · left
          simp [hp']
        · rcases ih hp' with h1 | h1
          · left
            exact List.mem_cons_of_mem _ h1
          · right
            simp [dictGet, hk, h1]

/-- The key list of `dictAppend`: unchanged when `k` is present, extended by
`k` at the end otherwise. -/
theorem dictAppend_keys {α : Type} (d : List (Nat × List α)) (k : Nat) (a : α) :
    (dictAppend d k a).map Prod.fst =
      if k ∈ d.map Prod.fst then d.map Prod.fst else d.map Prod.fst ++ [k] := by
  induction d with
  | nil => simp [dictAppend]
  | cons hd rest ih =>
      obtain ⟨k', v⟩ := hd
      by_cases hk : k' = k
      · subst hk
        simp [dictAppend]
      · have hk2 : ¬ (k = k') := fun hh => hk hh.symm
        by_cases hmem : k ∈ rest.map Prod.fst
        · simp [dictAppend, hk, ih, hmem, hk2]
        · simp [dictAppend, hk, ih, hmem, hk2]

/-- `dictAppend` preserves distinctness of the keys. -/
theorem dictAppend_keys_nodup {α : Type} (d : List (Nat × List α)) (k : Nat) (a : α)
    (h : (d.map Prod.fst).Nodup) : ((dictAppend d k a).map Prod.fst).Nodup := by
  rw [dictAppend_keys]
  by_cases hmem : k ∈ d.map Prod.fst
  · simpa [hmem] using h
  · simpa [hmem, List.nodup_append] using h

/-- Appending under a key absent from the dictionary creates a singleton
entry at the end. -/
theorem dictAppend_fresh {α : Type} (d : List (Nat × List α)) (k : Nat) (a : α)
    (h : k ∉ d.map Prod.fst) : dictAppend d k a = d ++ [(k, [a])] := by
  induction d with
  | nil => simp [dictAppend]
  | cons hd rest ih =>
      obtain ⟨k', v⟩ := hd
      have hk : ¬ (k' = k) := by
        intro hh
        exact h (by simp [hh])
      have h2 : k ∉ rest.map Prod.fst := by
        intro hh
        exact h (by simp [hh])
      simp [dictAppend, hk, ih h2]

/-- Reading the last entry's key when it does not occur earlier. -/
theorem dictGet_append_last {α : Type} (d : List (Nat × List α)) (k : Nat) (v : List α)
    (h : k ∉ d.map Prod.fst) : dictGet (d ++ [(k, v)]) k = v := by
  induction d with
  | nil => simp [dictGet]
  | cons hd rest ih =>
      obtain ⟨k', v'⟩ := hd
      have hk : ¬ (k' = k) := by
        intro hh
        exact h (by simp [hh])
      have h2 : k ∉ rest.map Prod.fst := by
        intro hh
        exact h (by simp [hh])
      simp [dictGet, hk, ih h2]

/-- Appending under the last entry's key when it does not occur earlier. -/
theorem dictAppend_append_last {α : Type} (d : List (Nat × List α)) (k : Nat)
    (v : List α) (a : α) (h : k ∉ d.map Prod.fst) :
    dictAppend (d ++ [(k, v)]) k a = d ++ [(k, v ++ [a])] := by
  induction d with
  | nil => simp [dictAppend]
  | cons hd rest ih =>
      obtain ⟨k', v'⟩ := hd
      have hk : ¬ (k' = k) := by
        intro hh
        exact h (by simp [hh])
      have h2 : k ∉ rest.map Prod.fst := by
        intro hh
        exact h (by simp [hh])
      simp [dictAppend, hk, ih h2]

/-- `dictAppend` inserts the new record into the stored multiset. -/
theorem allMembers_dictAppend {α : Type} (d : List (Nat × List α)) (k : Nat) (a : α) :
    (allMembers (dictAppend d k a)).Perm (a :: allMembers d) := by
  induction d with
  | nil => simp [allMembers, dictAppend]
  | cons hd rest ih =>
      obtain ⟨k', v⟩ := hd
      by_cases hk : k' = k
      · have e1 : dictAppend ((k', v) :: rest) k a = (k', v ++ [a]) :: rest := by
          simp [dictAppend, hk]
        rw [e1, allMembers_cons, allMembers_cons]
        have e2 : v ++ [a] ++ allMembers rest = v ++ a :: allMembers rest := by simp
        rw [e2]
        exact List.perm_middle
      · have e1 : dictAppend ((k', v) :: rest) k a = (k', v) :: dictAppend rest k a := by
          simp [dictAppend, hk]
        rw [e1, allMembers_cons, allMembers_cons]
        exact (ih.append_left v).trans List.perm_middle

/-! ### Global facts about the dealing loop -/

/-- Folding the dealing step only inserts the processed records: the stored
multiset after the fold is the starting one plus the processed list. -/
theorem foldl_dealStep_allMembers_perm {α : Type} (num_tables table_size : Nat) :
    ∀ (l : List α) (s : DealState α),
      (allMembers ((List.foldl (dealStep num_tables table_size) s l).tables)).Perm
        (allMembers s.tables ++ l) := by
  intro l
  induction l with
  | nil => intro s; simp
  | cons a l ih =>
      intro s
      have step : (List.foldl (dealStep num_tables table_size) s (a :: l)) =
          List.foldl (dealStep num_tables table_size) (dealStep num_tables table_size s a) l := rfl
      rw [step]
      have h1 := ih (dealStep num_tables table_size s a)
      have h2 : (allMembers (dealStep num_tables table_size s a).tables).Perm
          (a :: allMembers s.tables) := by
        simpa [dealStep] using allMembers_dictAppend s.tables s.tableNumber a
      have h3 : ((a :: allMembers s.tables) ++ l).Perm (allMembers s.tables ++ a :: l) := by
        simpa using List.perm_middle.symm
      exact h1.trans ((h2.append_right l).trans h3)

/-- The records dealt into the tables are exactly the shuffled records. -/
theorem deal_allMembers_perm {α : Type} (num_tables table_size : Nat) (l : List α) :
    (allMembers (deal num_tables table_size l)).Perm l := by
  simpa [deal, allMembers] using
    foldl_dealStep_allMembers_perm num_tables table_size l ⟨[], 1⟩

/-- The dealing loop never duplicates a table key. -/
theorem foldl_dealStep_keys_nodup {α : Type} (num_tables table_size : Nat) :
    ∀ (l : List α) (s : DealState α),
      (s.tables.map Prod.fst).Nodup →
      (((List.foldl (dealStep num_tables table_size) s l).tables).map Prod.fst).Nodup := by
  intro l
  induction l with
  | nil => intro s h; simpa using h
  | cons a l ih =>
      intro s h
      exact ih (dealStep num_tables table_size s a)
        (by simpa [dealStep] using dictAppend_keys_nodup s.tables s.tableNumber a h)

/-- The table keys produced by `deal` are distinct. -/
theorem deal_keys_nodup {α : Type} (num_tables table_size : Nat) (l : List α) :
    ((deal num_tables table_size l).map Prod.fst).Nodup := by
  simpa [deal] using
    foldl_dealStep_keys_nodup num_tables table_size l ⟨[], 1⟩ (by simp)

/-! ### Facts about the seat-assignment phase -/

theorem assignSeats_nil : assignSeats [] = [] := rfl

theorem assignSeats_cons (k : Nat) (v : List Record) (rest : List (Nat × List Record)) :
    assignSeats ((k, v) :: rest) =
      v.enum.map (fun p => { p.2 with tableNo := some k, seatNo := some (p.1 + 1) }) ++
        assignSeats rest := by
  simp [assignSeats]

/-- Seat assignment copies each row, so the `Name` column of the plan is the
`Name` column of the dealt tables in order. -/
theorem namesOf_assignSeats (d : List (Nat × List Record)) :
    namesOf (assignSeats d) = namesOf (allMembers d) := by
  induction d with
  | nil => rfl
  | cons hd rest ih =>
      obtain ⟨k, v⟩ := hd
      rw [assignSeats_cons, allMembers_cons]
      simp only [namesOf, List.map_append] at ih ⊢
      rw [ih]
      congr 1
      rw [List.map_map]
      have : ((fun r => r.name) ∘ fun p : Nat × Record =>
          { p.2 with tableNo := some k, seatNo := some (p.1 + 1) }) =
          (fun p : Nat × Record => p.2.name) := rfl
      rw [this]
      have e2 : (fun p : Nat × Record => p.2.name) =
          ((fun r : Record => r.name) ∘ Prod.snd) := rfl
      rw [e2, ← List.map_map, List.enum_map_snd]

/-- Seat assignment neither drops nor duplicates rows. -/
theorem length_assignSeats (d : List (Nat × List Record)) :
    (assignSeats d).length = (allMembers d).length := by
  have h := congrArg List.length (namesOf_assignSeats d)
  simpa [namesOf] using h

/-- Membership in the assigned plan: every plan row is a dealt member with
its table key and 1-based seat position filled in. -/
theorem mem_assignSeats {r : Record} {d : List (Nat × List Record)} :
    r ∈ assignSeats d ↔
      ∃ t ∈ d, ∃ p ∈ t.2.enum,
        r = { p.2 with tableNo := some t.1, seatNo := some (p.1 + 1) } := by
  constructor
  · intro hr
    simp only [assignSeats, List.mem_flatten, List.mem_map] at hr
    obtain ⟨block, ⟨t, ht, hblock⟩, hrb⟩ := hr
    subst hblock
    simp only [List.mem_map] at hrb
    obtain ⟨p, hp, hrp⟩ := hrb
    exact ⟨t, ht, p, hp, hrp.symm⟩
  · intro ⟨t, ht, p, hp, hrp⟩
    simp only [assignSeats, List.mem_flatten, List.mem_map]
    exact ⟨t.2.enum.map (fun p => { p.2 with tableNo := some t.1, seatNo := some (p.1 + 1) }),
      ⟨t, ht, rfl⟩, by simp only [List.mem_map]; exact ⟨p, hp, hrp.symm⟩⟩

/-! ### Injectivity of the decimal guest labels -/

/-- `pyDigitsAux` with enough fuel computes the base-10 digit characters,
most significant first. -/
theorem pyDigitsAux_eq_digits :
    ∀ (fuel n : Nat), n ≤ fuel →
      pyDigitsAux fuel n = ((Nat.digits 10 n).map Nat.digitChar).reverse := by
  intro fuel
  induction fuel with
  | zero =>
      intro n hn
      have : n = 0 := Nat.le_zero.mp hn
      subst this
      simp [pyDigitsAux]
  | succ fuel ih =>
      intro n hn
      match n with
      | 0 => simp [pyDigitsAux]
      | m + 1 =>
          rw [pyDigitsAux]
          have hdiv : (m + 1) / 10 ≤ fuel := by
            have := Nat.div_lt_self (Nat.succ_pos m) (by norm_num : 1 < 10)
            omega
          rw [ih _ hdiv, Nat.digits_def' (by norm_num : (1 : Nat) < 10) (Nat.succ_pos m)]
          simp

/-- `Nat.digitChar` is injective on digits below 10. -/
theorem digitChar_inj_lt (a b : Nat) (ha : a < 10) (hb : b < 10)
    (h : Nat.digitChar a = Nat.digitChar b) : a = b := by
  interval_cases a <;> interval_cases b <;> revert h <;> decide

/-- Mapping `Nat.digitChar` over lists of digits below 10 is injective. -/
theorem map_digitChar_inj :
    ∀ (l1 l2 : List Nat), (∀ d ∈ l1, d < 10) → (∀ d ∈ l2, d < 10) →
      l1.map Nat.digitChar = l2.map Nat.digitChar → l1 = l2 := by
  intro l1
  induction l1 with
  | nil =>
      intro l2 _ _ h
      cases l2 with
      | nil => rfl
      | cons b l2' => simp at h
  | cons a l ih =>
      intro l2 h1 h2 h
      cases l2 with
      | nil => simp at h
      | cons b l2' =>
          simp only [List.map_cons, List.cons.injEq] at h
          have hab : a = b :=
            digitChar_inj_lt a b (h1 a (by simp)) (h2 b (by simp)) h.1
          rw [hab, ih l2' (fun d hd => h1 d (by simp [hd])) (fun d hd => h2 d (by simp [hd])) h.2]

/-- All base-10 digits are below 10. -/
theorem digits_ten_lt (n : Nat) : ∀ d ∈ Nat.digits 10 n, d < 10 :=
  fun _ hd => Nat.digits_lt_base (by norm_num) hd

/-- A natural whose digit list is `[0]` is zero. -/
theorem digits_eq_zero_singleton {n : Nat} (h : Nat.digits 10 n = [0]) : n = 0 := by
  have h1 := Nat.ofDigits_digits 10 n
  rw [h] at h1
  simpa [Nat.ofDigits] using h1.symm

/-- Python's decimal rendering of naturals is injective. -/
theorem pyStr_injective : Function.Injective pyStr := by
  intro m n h
  by_cases hm : m = 0 <;> by_cases hn : n = 0
  · omega
  · exfalso
    subst hm
    unfold pyStr at h
    rw [if_pos rfl, if_neg hn, pyDigitsAux_eq_digits n n le_rfl] at h
    have hd : (['0'] : List Char) = ((Nat.digits 10 n).map Nat.digitChar).reverse :=
      congrArg String.data h
    have hrev : (Nat.digits 10 n).map Nat.digitChar = ['0'] := by
      have h2 := congrArg List.reverse hd
      simpa using h2.symm
    have hdig : Nat.digits 10 n = [0] :=
      map_digitChar_inj (Nat.digits 10 n) [0] (digits_ten_lt n)
        (by intro d hd; simp at hd; omega) (by rw [hrev]; rfl)
    exact hn (digits_eq_zero_singleton hdig)
  · exfalso
    subst hn
    unfold pyStr at h
    rw [if_pos rfl, if_neg hm, pyDigitsAux_eq_digits m m le_rfl] at h
    have hd : ((Nat.digits 10 m).map Nat.digitChar).reverse = (['0'] : List Char) :=
      congrArg String.data h
    have hrev : (Nat.digits 10 m).map Nat.digitChar = ['0'] := by
      have h2 := congrArg List.reverse hd
      simpa using h2
    have hdig : Nat.digits 10 m = [0] :=
      map_digitChar_inj (Nat.digits 10 m) [0] (digits_ten_lt m)
        (by intro d hd; simp at hd; omega) (by rw [hrev]; rfl)
    exact hm (digits_eq_zero_singleton hdig)
  · unfold pyStr at h
    rw [if_neg hm, if_neg hn, pyDigitsAux_eq_digits m m le_rfl,
      pyDigitsAux_eq_digits n n le_rfl] at h
    have hd : ((Nat.digits 10 m).map Nat.digitChar).reverse =
        ((Nat.digits 10 n).map Nat.digitChar).reverse := congrArg String.data h
    have hrev : (Nat.digits 10 m).map Nat.digitChar =
        (Nat.digits 10 n).map Nat.digitChar := by
      have h2 := congrArg List.reverse hd
      simpa using h2
    have hdig : Nat.digits 10 m = Nat.digits 10 n :=
      map_digitChar_inj _ _ (digits_ten_lt m) (digits_ten_lt n) hrev
    have h1 := Nat.ofDigits_digits 10 m
    have h2 := Nat.ofDigits_digits 10 n
    rw [← h1, ← h2, hdig]

/-- Left-cancellation for string concatenation. -/
theorem string_append_left_cancel (s t u : String) (h : s ++ t = s ++ u) : t = u := by
  have hdata : s.data ++ t.data = s.data ++ u.data := congrArg String.data h
  exact String.ext (List.append_cancel_left hdata)

/-- The guest labels `"Guest 1" .. "Guest n"` are pairwise distinct. -/
theorem guestLabel_injective :
    Function.Injective (fun i : Nat => ("Guest ") ++ pyStr (i + 1)) := by
  intro a b h
  have := pyStr_injective (string_append_left_cancel _ _ _ h)
  omega

/-- The `Name` column of the synthesized guests. -/
theorem generate_guests_names (num_guests : Nat) :
    namesOf (generate_guests num_guests) =
      (List.range num_guests).map (fun i => ("Guest ") ++ pyStr (i + 1)) := by
  simp [namesOf, generate_guests, mkGuest, List.map_map]

/-- Guest names never collide with each other. -/
theorem generate_guests_names_nodup (num_guests : Nat) :
    (namesOf (generate_guests num_guests)).Nodup := by
  rw [generate_guests_names]
  exact (List.nodup_range num_guests).map guestLabel_injective

theorem generate_guests_length (num_guests : Nat) :
    (generate_guests num_guests).length = num_guests := by
  simp [generate_guests]

/-! ### The dealing loop on one table block -/

/-- Processing records that fit inside the table currently being filled
(the last dictionary entry): they are appended there; the table counter
advances exactly when the block is completed. -/
theorem foldl_dealStep_partial {α : Type} (num_tables table_size : Nat) :
    ∀ (b : List α) (D : List (Nat × List α)) (m : Nat) (cur : List α),
      m ∉ D.map Prod.fst → m ≤ num_tables → b ≠ [] →
      cur.length + b.length ≤ table_size →
      List.foldl (dealStep num_tables table_size) ⟨D ++ [(m, cur)], m⟩ b =
        ⟨D ++ [(m, cur ++ b)],
          if cur.length + b.length = table_size then
            (if num_tables < m + 1 then 1 else m + 1)
          else m⟩ := by
  intro b
  induction b with
  | nil =>
      intro D m cur _ _ hb _
      exact absurd rfl hb
  | cons a b ih =>
      intro D m cur hfresh hmn _ hlen
      rw [List.foldl_cons]
      have hda : dictAppend (D ++ [(m, cur)]) m a = D ++ [(m, cur ++ [a])] :=
        dictAppend_append_last D m cur a hfresh
      have hdg : dictGet (D ++ [(m, cur ++ [a])]) m = cur ++ [a] :=
        dictGet_append_last D m (cur ++ [a]) hfresh
      cases b with
      | nil =>
          simp only [List.foldl_nil, dealStep, hda, hdg]
          by_cases hts : cur.length + 1 = table_size
          · have hl : (cur ++ [a]).length = table_size := by
              simp [hts]
            simp [hl, hts]
          · have hnm : ¬ (num_tables < m) := Nat.not_lt.mpr hmn
            simp [hts, hnm]
      | cons c b' =>
          have hlt : cur.length + 1 < table_size := by
            simp only [List.length_cons] at hlen
            omega
          have hstate : dealStep num_tables table_size ⟨D ++ [(m, cur)], m⟩ a =
              ⟨D ++ [(m, cur ++ [a])], m⟩ := by
            simp only [dealStep, hda, hdg]
            have hts' : ¬ (cur.length + 1 = table_size) := by omega
            have hnm : ¬ (num_tables < m) := Nat.not_lt.mpr hmn
            simp [hts', hnm]
          rw [hstate]
          have hrec := ih D m (cur ++ [a]) hfresh hmn (by simp)
            (by simp at hlen ⊢; omega)
          rw [hrec]
          have harr : (cur ++ [a]).length + (c :: b').length =
              cur.length + (a :: c :: b').length := by
            simp
            omega
          rw [harr]
          simp

/-- Processing a nonempty block that fits into a brand-new table: the table
is created at the end of the dictionary and filled; the counter advances
exactly when the block has `table_size` records. -/
theorem foldl_dealStep_newtable {α : Type} (num_tables table_size : Nat) :
    ∀ (b : List α) (D : List (Nat × List α)) (m : Nat),
      m ∉ D.map Prod.fst → m ≤ num_tables → b ≠ [] → b.length ≤ table_size →
      List.foldl (dealStep num_tables table_size) ⟨D, m⟩ b =
        ⟨D ++ [(m, b)],
          if b.length = table_size then
            (if num_tables < m + 1 then 1 else m + 1)
          else m⟩ := by
  intro b D m hfresh hmn hb hlen
  cases b with
  | nil => exact absurd rfl hb
  | cons a b' =>
      rw [List.foldl_cons]
      have hda : dictAppend D m a = D ++ [(m, [a])] := dictAppend_fresh D m a hfresh
      have hdg : dictGet (D ++ [(m, [a])]) m = [a] := dictGet_append_last D m [a] hfresh
      cases b' with
      | nil =>
          simp only [List.foldl_nil, dealStep, hda, hdg]
          by_cases hts : ([a] : List α).length = table_size
          · simp only [List.length_cons, List.length_nil]
            simp only [List.length_cons, List.length_nil] at hts
            simp [hts]
          · have hnm : ¬ (num_tables < m) := Nat.not_lt.mpr hmn
            simp only [List.length_cons, List.length_nil] at hts
            simp [hts, hnm]
      | cons c b'' =>
          have hlt : 1 < table_size := by
            simp only [List.length_cons] at hlen
            omega
          have hstate : dealStep num_tables table_size ⟨D, m⟩ a =
              ⟨D ++ [(m, [a])], m⟩ := by
            simp only [dealStep, hda, hdg]
            have hl : ¬ (1 = table_size) := by omega
            have hnm : ¬ (num_tables < m) := Nat.not_lt.mpr hmn
            simp [hl, hnm]
          rw [hstate]
          have hrec := foldl_dealStep_partial num_tables table_size (c :: b'') D m [a]
            hfresh hmn (by simp)
            (by simp at hlen ⊢; omega)
          rw [hrec]
          have harr : ([a] : List α).length + (c :: b'').length =
              (a :: c :: b'').length := by
            simp
            omega
          rw [harr]
          simp

/-! ### The dealing loop beyond capacity -/

/-- Dealing exactly `j` full blocks of `table_size` records fills tables
`m, m+1, ..., num_tables` and wraps the counter back to table 1. -/
theorem foldl_dealStep_fullblocks {α : Type} (num_tables table_size : Nat)
    (hts : 0 < table_size) :
    ∀ (j : Nat) (l : List α) (D : List (Nat × List α)) (m : Nat),
      (∀ k ∈ D.map Prod.fst, k < m) → 1 ≤ j → m + j = num_tables + 1 →
      l.length = j * table_size →
      List.foldl (dealStep num_tables table_size) ⟨D, m⟩ l =
        ⟨D ++ (List.range j).map
            (fun i => (m + i, (l.drop (i * table_size)).take table_size)), 1⟩ := by
  intro j
  induction j with
  | zero => intro l D m _ h1 _ _; omega
  | succ j ih =>
      intro l D m hkeys h1 hmj hlen
      have hfresh : m ∉ D.map Prod.fst := fun hmem => absurd (hkeys m hmem) (by omega)
      have hmn : m ≤ num_tables := by omega
      cases Nat.eq_zero_or_pos j with
      | inl hj0 =>
          subst hj0
          have hlen' : l.length = table_size := by simpa using hlen
          have hne : l ≠ [] := by
            intro hl
            rw [hl] at hlen'
            simp at hlen'
            omega
          have hm : m = num_tables := by omega
          rw [foldl_dealStep_newtable num_tables table_size l D m hfresh hmn hne
            (le_of_eq hlen')]
          rw [if_pos hlen', hm, if_pos (Nat.lt_succ_self num_tables)]
          have htl : l.take table_size = l := List.take_of_length_le (by omega)
          have : (List.range 1).map
              (fun i => (num_tables + i, (l.drop (i * table_size)).take table_size)) =
              [(num_tables, l)] := by
            simp [List.range_succ, htl]
          rw [this]
      | inr hjpos =>
          have hlts : table_size ≤ l.length := by
            rw [hlen]
            calc table_size = 1 * table_size := (Nat.one_mul table_size).symm
            _ ≤ (j + 1) * table_size := Nat.mul_le_mul_right table_size (by omega)
          have hsplit : l.take table_size ++ l.drop table_size = l :=
            List.take_append_drop table_size l
          have hclen : (l.take table_size).length = table_size := by
            rw [List.length_take]
            omega
          have hcne : l.take table_size ≠ [] := by
            intro hc
            rw [hc] at hclen
            simp at hclen
            omega
          have hfold : List.foldl (dealStep num_tables table_size)
              (⟨D, m⟩ : DealState α) l =
              List.foldl (dealStep num_tables table_size)
                (List.foldl (dealStep num_tables table_size) ⟨D, m⟩ (l.take table_size))
                (l.drop table_size) := by
            conv_lhs => rw [← hsplit]
            rw [List.foldl_append]
          rw [hfold]
          rw [foldl_dealStep_newtable num_tables table_size (l.take table_size) D m
            hfresh hmn hcne (le_of_eq hclen)]
          rw [if_pos hclen, if_neg (by omega : ¬ (num_tables < m + 1))]
          have hrec := ih (l.drop table_size) (D ++ [(m, l.take table_size)]) (m + 1)
            (by
              intro k hk
              simp at hk
              rcases hk with hk | hk
              · exact Nat.lt_succ_of_lt (hkeys k (by simpa using hk))
              · omega)
            hjpos (by omega)
            (by rw [List.length_drop, hlen]; rw [Nat.succ_mul]; omega)
          rw [hrec, List.append_assoc]
          congr 1
          rw [List.range_succ_eq_map]
          rw [List.map_cons, List.map_map]
          rw [List.singleton_append]
          have hhd : (m + 0, List.take table_size (List.drop (0 * table_size) l)) =
              (m, List.take table_size l) := by
            simp
          rw [hhd]
          have htail : (List.range j).map
              ((fun i => (m + i, List.take table_size (List.drop (i * table_size) l))) ∘
                Nat.succ) =
              (List.range j).map
                (fun i => (m + 1 + i,
                  List.take table_size (List.drop (i * table_size) (List.drop table_size l)))) := by
            apply List.map_congr_left
            intro i hi
            simp only [Function.comp, List.drop_drop, Prod.mk.injEq]
            constructor
            · omega
            · congr 2
              rw [Nat.succ_mul]
              ring
          rw [htail]

/-- Once the counter has wrapped back to a full table 1, every remaining
record lands on table 1 and the counter never moves again: appending keeps
table 1's length different from `table_size`, so the advance test never
fires. -/
theorem foldl_dealStep_overflowExtras {α : Type} (num_tables table_size : Nat)
    (hnt : 1 ≤ num_tables) :
    ∀ (extra c1 : List α) (rest : List (Nat × List α)),
      table_size ≤ c1.length →
      List.foldl (dealStep num_tables table_size) ⟨(1, c1) :: rest, 1⟩ extra =
        ⟨(1, c1 ++ extra) :: rest, 1⟩ := by
  intro extra
  induction extra with
  | nil => intro c1 rest _; simp
  | cons a extra ih =>
      intro c1 rest hc1
      rw [List.foldl_cons]
      have hstate : dealStep num_tables table_size ⟨(1, c1) :: rest, 1⟩ a =
          ⟨(1, c1 ++ [a]) :: rest, 1⟩ := by
        have hda : dictAppend ((1, c1) :: rest) 1 a = (1, c1 ++ [a]) :: rest := by
          simp [dictAppend]
        have hdg : dictGet ((1, c1 ++ [a]) :: rest) 1 = c1 ++ [a] := by
          simp [dictGet]
        simp only [dealStep, hda, hdg]
        have hl : ¬ (c1.length + 1 = table_size) := by omega
        have hn1 : ¬ (num_tables < 1) := by omega
        simp [hl, hn1]
      rw [hstate, ih (c1 ++ [a]) rest (by simp; omega)]
      simp

/-- `deal` beyond capacity: table 1 receives its nominal first
`table_size` records plus the whole overflow, tables `2 .. num_tables`
exactly their nominal block. -/
theorem deal_overflow {α : Type} (num_tables table_size : Nat)
    (hts : 0 < table_size) (hnt : 1 ≤ num_tables) (l : List α)
    (hover : num_tables * table_size < l.length) :
    deal num_tables table_size l =
      (1, l.take table_size ++ l.drop (num_tables * table_size)) ::
        (List.range (num_tables - 1)).map
          (fun i => (i + 2, (l.drop ((i + 1) * table_size)).take table_size)) := by
  have hble : num_tables * table_size ≤ l.length := le_of_lt hover
  have hsplit : l.take (num_tables * table_size) ++ l.drop (num_tables * table_size) = l :=
    List.take_append_drop _ l
  have hblen : (l.take (num_tables * table_size)).length = num_tables * table_size := by
    rw [List.length_take]
    omega
  have htsnt : table_size ≤ num_tables * table_size := by
    have h2 := Nat.mul_le_mul_right table_size hnt
    simpa using h2
  have hfold : List.foldl (dealStep num_tables table_size)
      (⟨[], 1⟩ : DealState α) l =
      List.foldl (dealStep num_tables table_size)
        (List.foldl (dealStep num_tables table_size) ⟨[], 1⟩
          (l.take (num_tables * table_size)))
        (l.drop (num_tables * table_size)) := by
    conv_lhs => rw [← hsplit]
    rw [List.foldl_append]
  rw [deal, hfold]
  rw [foldl_dealStep_fullblocks num_tables table_size hts num_tables
    (l.take (num_tables * table_size)) [] 1 (by simp) hnt (by omega) (by rw [hblen])]
  have hhead : (List.range num_tables).map
      (fun i => (1 + i, ((l.take (num_tables * table_size)).drop (i * table_size)).take table_size)) =
      (1, l.take table_size) ::
        (List.range (num_tables - 1)).map
          (fun i => (i + 2, (l.drop ((i + 1) * table_size)).take table_size)) := by
    have hr : List.range num_tables = List.range ((num_tables - 1) + 1) := by
      congr 1
      omega
    rw [hr, List.range_succ_eq_map, List.map_cons, List.map_map]
    congr 1
    · have e : (l.take (num_tables * table_size)).take table_size = l.take table_size := by
        rw [List.take_take]
        congr 1
        omega
      simp [e]
    · apply List.map_congr_left
      intro i hi
      simp only [List.mem_range] at hi
      simp only [Function.comp, Prod.mk.injEq]
      constructor
      · omega
      · have hsucc : Nat.succ i * table_size + table_size ≤ num_tables * table_size := by
          have h2 : (i + 2) ≤ num_tables := by omega
          have h3 : (i + 2) * table_size ≤ num_tables * table_size :=
            Nat.mul_le_mul_right table_size h2
          calc Nat.succ i * table_size + table_size
              = (i + 2) * table_size := by
                rw [Nat.succ_mul]
                ring
          _ ≤ num_tables * table_size := h3
        rw [List.drop_take, List.take_take]
        congr 1
        omega
  rw [hhead]
  have hc1len : table_size ≤ (l.take table_size).length := by
    rw [List.length_take]
    omega
  rw [List.nil_append]
  rw [foldl_dealStep_overflowExtras num_tables table_size hnt
    (l.drop (num_tables * table_size)) (l.take table_size) _ hc1len]

/-! ### Reading tables back out of the dictionary -/

/-- With distinct keys, `dictGet` returns the entry stored for a key. -/
theorem dictGet_of_mem {α : Type} :
    ∀ (d : List (Nat × List α)) (k : Nat) (v : List α),
      (k, v) ∈ d → (d.map Prod.fst).Nodup → dictGet d k = v := by
  intro d
  induction d with
  | nil =>
      intro k v hv _
      simp at hv
  | cons hd rest ih =>
      intro k v hv hnd
      obtain ⟨k', v'⟩ := hd
      simp only [List.map_cons, List.nodup_cons] at hnd
      rcases List.mem_cons.mp hv with hv' | hv'
      · have hk : k' = k := by
          have := congrArg Prod.fst hv'
          simpa using this.symm
        have hvv : v' = v := by
          have := congrArg Prod.snd hv'
          simpa using this.symm
        rw [dictGet, if_pos hk, hvv]
      · have hk : ¬ (k' = k) := by
          intro hh
          subst hh
          exact hnd.1 (by
            have : k' ∈ (rest.map Prod.fst) := List.mem_map_of_mem Prod.fst hv'
            simpa using this)
        rw [dictGet, if_neg hk]
        exact ih k v hv' hnd.2

/-- Rows assigned from a table keyed `k` carry `Table No. = k`. -/
theorem mem_assignSeats_tableNo {r : Record} {d : List (Nat × List Record)}
    (hr : r ∈ assignSeats d) : ∃ k ∈ d.map Prod.fst, r.tableNo = some k := by
  rcases mem_assignSeats.mp hr with ⟨t, ht, p, _, hrp⟩
  exact ⟨t.1, List.mem_map_of_mem Prod.fst ht, by rw [hrp]⟩

/-- Splitting the assigned plan by table: with distinct table keys, the plan
rows carrying `Table No. = t` are exactly the rows built from the members
stored under `t`, in order, with seats `1..k`. -/
theorem assignSeats_filter :
    ∀ (d : List (Nat × List Record)), (d.map Prod.fst).Nodup → ∀ (t : Nat),
      (assignSeats d).filter (fun r => r.tableNo == some t) =
        (dictGet d t).enum.map
          (fun p => { p.2 with tableNo := some t, seatNo := some (p.1 + 1) }) := by
  intro d
  induction d with
  | nil =>
      intro _ t
      simp [assignSeats, dictGet]
  | cons hd rest ih =>
      intro hnd t
      obtain ⟨k, v⟩ := hd
      simp only [List.map_cons, List.nodup_cons] at hnd
      rw [assignSeats_cons, List.filter_append]
      by_cases hk : k = t
      · subst hk
        have hblock : (v.enum.map
            (fun p => { p.2 with tableNo := some k, seatNo := some (p.1 + 1) })).filter
              (fun r => r.tableNo == some k) =
            v.enum.map (fun p => { p.2 with tableNo := some k, seatNo := some (p.1 + 1) }) := by
          apply List.filter_eq_self.mpr
          intro r hr
          simp only [List.mem_map] at hr
          obtain ⟨p, _, hrp⟩ := hr
          rw [← hrp]
          simp
        have hrest : (assignSeats rest).filter (fun r => r.tableNo == some k) = [] := by
          apply List.filter_eq_nil_iff.mpr
          intro r hr
          obtain ⟨k', hk', hTab⟩ := mem_assignSeats_tableNo hr
          have hne : k' ≠ k := by
            intro hh
            subst hh
            exact hnd.1 (by simpa using hk')
          simp [hTab, hne]
        rw [hblock, hrest, List.append_nil]
        rw [dictGet, if_pos rfl]
      · have hblock : (v.enum.map
            (fun p => { p.2 with tableNo := some k, seatNo := some (p.1 + 1) })).filter
              (fun r => r.tableNo == some t) = [] := by
          apply List.filter_eq_nil_iff.mpr
          intro r hr
          simp only [List.mem_map] at hr
          obtain ⟨p, _, hrp⟩ := hr
          rw [← hrp]
          simp [hk]
        rw [hblock, List.nil_append, dictGet, if_neg hk]
        exact ih hnd.2 t

/-! ### Table bounds when the capacity is not exceeded -/

/-- Invariant induction for the dealing loop below capacity: as long as the
remaining records fit into the remaining seats, every table keeps at most
`table_size` members and every key stays in `[1, num_tables]`. -/
theorem foldl_dealStep_bounds {α : Type} (num_tables table_size : Nat) :
    ∀ (l : List α) (T : List (Nat × List α)) (m : Nat),
      1 ≤ m → m ≤ num_tables →
      (dictGet T m).length < table_size →
      (∀ k, m < k → dictGet T k = []) →
      (∀ p ∈ T, p.2.length ≤ table_size ∧ 1 ≤ p.1 ∧ p.1 ≤ num_tables) →
      l.length ≤ (num_tables - m) * table_size + (table_size - (dictGet T m).length) →
      ∀ p ∈ (List.foldl (dealStep num_tables table_size) ⟨T, m⟩ l).tables,
        p.2.length ≤ table_size ∧ 1 ≤ p.1 ∧ p.1 ≤ num_tables := by
  intro l
  induction l with
  | nil =>
      intro T m _ _ _ _ hb _ p hp
      exact hb p (by simpa using hp)
  | cons a l ih =>
      intro T m h1 hmn hcur h4 hb hcap
      have hg : dictGet (dictAppend T m a) m = dictGet T m ++ [a] :=
        dictGet_dictAppend_self T m a
      have hb' : ∀ p ∈ dictAppend T m a,
          p.2.length ≤ table_size ∧ 1 ≤ p.1 ∧ p.1 ≤ num_tables := by
        intro p hp
        rcases mem_dictAppend hp with hp' | hp'
        · exact hb p hp'
        · rw [hp']
          refine ⟨?_, h1, hmn⟩
          simp
          omega
      rw [List.foldl_cons]
      by_cases hfull : (dictGet T m).length + 1 = table_size
      · by_cases hm : m = num_tables
        · cases l with
          | nil =>
              intro p hp
              simp only [List.foldl_nil] at hp
              refine hb' p ?_
              have e : (dealStep num_tables table_size ⟨T, m⟩ a).tables =
                  dictAppend T m a := rfl
              rw [e] at hp
              exact hp
          | cons b l'' =>
              exfalso
              subst hm
              have hz : (m - m) * table_size = 0 := by simp
              simp only [List.length_cons] at hcap
              omega
        · have hmlt : m < num_tables := lt_of_le_of_ne hmn hm
          have hstep : dealStep num_tables table_size ⟨T, m⟩ a =
              ⟨dictAppend T m a, m + 1⟩ := by
            simp only [dealStep, hg]
            have hlen2 : (dictGet T m).length + 1 = table_size := hfull
            simp [hlen2]
            omega
          rw [hstep]
          apply ih (dictAppend T m a) (m + 1) (by omega) (by omega)
          · rw [dictGet_dictAppend_ne T m (m + 1) a (by omega)]
            rw [h4 (m + 1) (by omega)]
            simp
            omega
          · intro k hk
            rw [dictGet_dictAppend_ne T m k a (by omega)]
            exact h4 k (by omega)
          · exact hb'
          · rw [dictGet_dictAppend_ne T m (m + 1) a (by omega), h4 (m + 1) (by omega)]
            simp only [List.length_nil, Nat.sub_zero]
            have hX : (num_tables - m) * table_size =
                (num_tables - (m + 1)) * table_size + table_size := by
              have h7 : num_tables - m = (num_tables - (m + 1)) + 1 := by omega
              rw [h7, Nat.succ_mul]
            simp only [List.length_cons] at hcap
            omega
      · have hstep : dealStep num_tables table_size ⟨T, m⟩ a =
            ⟨dictAppend T m a, m⟩ := by
          simp only [dealStep, hg]
          have hlen2 : ¬ ((dictGet T m).length + 1 = table_size) := hfull
          simp [hlen2, Nat.not_lt.mpr hmn]
        rw [hstep]
        apply ih (dictAppend T m a) m h1 hmn
        · rw [hg]
          simp
          omega
        · intro k hk
          rw [dictGet_dictAppend_ne T m k a (by omega)]
          exact h4 k hk
        · exact hb'
        · rw [hg]
          simp only [List.length_append, List.length_cons, List.length_nil]
          simp only [List.length_cons] at hcap
          omega

/-- Below capacity, every dealt table has at most `table_size` members and
every key lies in `[1, num_tables]`. -/
theorem deal_bounds {α : Type} (num_tables table_size : Nat) (l : List α)
    (hcap : l.length ≤ num_tables * table_size) :
    ∀ p ∈ deal num_tables table_size l,
      p.2.length ≤ table_size ∧ 1 ≤ p.1 ∧ p.1 ≤ num_tables := by
  cases l with
  | nil =>
      intro p hp
      simp [deal] at hp
  | cons a l' =>
      have hts : 0 < table_size := by
        by_contra h
        have hz : table_size = 0 := by omega
        rw [hz, Nat.mul_zero] at hcap
        simp at hcap
      have hnt : 1 ≤ num_tables := by
        by_contra h
        have hz : num_tables = 0 := by omega
        rw [hz, Nat.zero_mul] at hcap
        simp at hcap
      intro p hp
      refine foldl_dealStep_bounds num_tables table_size (a :: l') [] 1 (by omega) hnt
        (by simp [dictGet]; omega) (by intro k _; simp [dictGet]) (by simp)
        ?_ p (by simpa [deal] using hp)
      have hX : (num_tables - 1) * table_size + table_size = num_tables * table_size := by
        have h7 : num_tables = (num_tables - 1) + 1 := by omega
        conv_rhs => rw [h7]
        rw [Nat.succ_mul]
      simp only [dictGet, List.length_nil, Nat.sub_zero]
      omega

/-! ### Characterizing the verifier's branches -/

theorem pdUnique_nil : pdUnique [] = [] := rfl

theorem pdUnique_cons_ne_nil (a : String) (rest : List String) :
    pdUnique (a :: rest) ≠ [] := by
  simp [pdUnique, pdUniqueAux]

/-- When the plan's names are distinct, the duplicate filter is empty. -/
theorem dup_filter_eq_nil {names : List String} (h : names.Nodup) :
    names.filter (fun n => 1 < names.count n) = [] := by
  apply List.filter_eq_nil_iff.mpr
  intro n _
  have hc := List.nodup_iff_count_le_one.mp h n
  simp only [decide_eq_true_eq]
  omega

/-- When the plan's names are not distinct, the duplicate filter is
nonempty. -/
theorem dup_filter_ne_nil {names : List String} (h : ¬ names.Nodup) :
    names.filter (fun n => 1 < names.count n) ≠ [] := by
  intro hF
  apply h
  rw [List.nodup_iff_count_le_one]
  intro n
  by_contra hc
  have hmem : n ∈ names := by
    have : 0 < names.count n := by omega
    exact List.count_pos_iff.mp this
  have := List.filter_eq_nil_iff.mp hF n hmem
  simp only [decide_eq_true_eq] at this
  omega

/-- Duplicate names in the plan: `verify_seating_plan` fails in its first
check and reports the distinct duplicated names. -/
theorem verify_dup_branch (attendees_df day2_df : List Record)
    (h : ¬ (namesOf day2_df).Nodup) :
    verify_seating_plan attendees_df day2_df =
      (false, ("Duplicate entries found: ") ++ String.intercalate (", ")
        (pdUnique ((namesOf day2_df).filter (fun n => 1 < (namesOf day2_df).count n)))) := by
  have hF := dup_filter_ne_nil h
  rw [verify_seating_plan]
  rcases hne : (namesOf day2_df).filter (fun n => 1 < (namesOf day2_df).count n) with _ | ⟨b, rest⟩
  · exact absurd hne hF
  · have hie : (pdUnique (b :: rest)).isEmpty = false := by
      rcases hq : pdUnique (b :: rest) with _ | ⟨c, cs⟩
      · exact absurd hq (pdUnique_cons_ne_nil b rest)
      · rfl
    rw [if_pos hie]

/-- No duplicates but a roster name is absent: `verify_seating_plan` fails
in its second check and reports the missing names. -/
theorem verify_missing_branch (attendees_df day2_df : List Record)
    (hnd : (namesOf day2_df).Nodup)
    (h : ∃ n ∈ namesOf attendees_df, n ∉ namesOf day2_df) :
    verify_seating_plan attendees_df day2_df =
      (false, ("Missing participants from Day 1: ") ++ String.intercalate (", ")
        (pdUnique ((namesOf attendees_df).filter
          (fun n => !((namesOf day2_df).contains n))))) := by
  have hF := dup_filter_eq_nil hnd
  rw [verify_seating_plan, hF]
  obtain ⟨n, hn, hnd2⟩ := h
  have hmem : n ∈ (namesOf attendees_df).filter (fun n => !((namesOf day2_df).contains n)) := by
    rw [List.mem_filter]
    refine ⟨hn, ?_⟩
    simp only [Bool.not_eq_eq_eq_not, Bool.not_true]
    rw [← Bool.not_eq_true]
    intro hc
    exact hnd2 (List.elem_iff.mp hc)
  rcases hne : (namesOf attendees_df).filter (fun n => !((namesOf day2_df).contains n)) with _ | ⟨b, rest⟩
  · rw [hne] at hmem
    simp at hmem
  · have hie : (pdUnique (b :: rest)).isEmpty = false := by
      rcases hq : pdUnique (b :: rest) with _ | ⟨c, cs⟩
      · exact absurd hq (pdUnique_cons_ne_nil b rest)
      · rfl
    rw [if_neg (by simp [pdUnique_nil])]
    simp [hie]

/-- No duplicates and every roster name present: `verify_seating_plan`
succeeds. -/
theorem verify_success_branch (attendees_df day2_df : List Record)
    (hnd : (namesOf day2_df).Nodup)
    (h : ∀ n ∈ namesOf attendees_df, n ∈ namesOf day2_df) :
    verify_seating_plan attendees_df day2_df = (true, ("Seating plan is valid.")) := by
  have hF := dup_filter_eq_nil hnd
  have hM : (namesOf attendees_df).filter (fun n => !((namesOf day2_df).contains n)) = [] := by
    apply List.filter_eq_nil_iff.mpr
    intro n hn
    have hmem2 : n ∈ namesOf day2_df := h n hn
    simpa using hmem2
  rw [verify_seating_plan, hF, hM]
  simp [pdUnique_nil]

/-! ### Plan-level conservation -/

/-- The plan's `Name` column is a permutation of the shuffled input's. -/
theorem namesOf_create_perm (num_tables table_size : Nat) (shuffled : List Record) :
    (namesOf (create_day2_seating num_tables table_size shuffled)).Perm
      (namesOf shuffled) := by
  rw [create_day2_seating, namesOf_assignSeats]
  exact (deal_allMembers_perm num_tables table_size shuffled).map (fun r => r.name)

/-- The plan has exactly as many rows as the shuffled input. -/
theorem create_length (num_tables table_size : Nat) (shuffled : List Record) :
    (create_day2_seating num_tables table_size shuffled).length = shuffled.length := by
  rw [create_day2_seating, length_assignSeats]
  exact (deal_allMembers_perm num_tables table_size shuffled).length_eq

/-! ### A heap model of the seat-assignment phase

The `.copy()` call on seating.py line 77 is the interesting part of the
frame property: the loop mutates `member["Table No."]` and
`member["Seat No."]`, and does so on a copy so the rows of the input
DataFrames are untouched.  Rows are modelled as cells of a growing store,
addressed by index; the dealt tables hold addresses, `.copy()` allocates a
fresh cell, and the two column writes update only that fresh cell. -/

/-- A store of rows; addresses are list indices. -/
structure Store where
  recs : List Record

/-- Dereference an address (reads of `member`). -/
def Store.read (σ : Store) (a : Nat) : Record :=
  σ.recs.getD a default

/-- `member.copy()`: allocate a fresh cell holding the same row. -/
def Store.alloc (σ : Store) (r : Record) : Store × Nat :=
  (⟨σ.recs ++ [r]⟩, σ.recs.length)

/-- `member["..."] = value`: overwrite the cell at an address. -/
def Store.write (σ : Store) (a : Nat) (r : Record) : Store :=
  ⟨σ.recs.set a r⟩

/-- One iteration of the inner loop of seating.py lines 76-80 at table
`t`: `member = member.copy()`, then the two column writes on the copy, then
the copy's address is appended to the plan. -/
def assignOne (t : Nat) (acc : Store × List Nat) (p : Nat × Nat) : Store × List Nat :=
  let copied := (acc.1).alloc ((acc.1).read p.2)
  let σ1 := copied.1
  let a' := copied.2
  let σ2 := σ1.write a' { σ1.read a' with tableNo := some t }
  let σ3 := σ2.write a' { σ2.read a' with seatNo := some (p.1 + 1) }
  (σ3, acc.2 ++ [a'])

/-- The seat-assignment phase of seating.py lines 73-82 over a store:
iterate the dealt tables, and each member's address through `assignOne`. -/
def assignSeatsStore (σ : Store) (tables : List (Nat × List Nat)) : Store × List Nat :=
  tables.foldl (fun acc t => (t.2.enum).foldl (assignOne t.1) acc) (σ, [])

/-- `create_day2_seating` over the store: the concatenation and shuffle
build new row collections (pandas `concat` and `sample` copy), dealing
moves addresses only, and seat assignment runs `assignOne`. -/
def create_day2_seating_store (num_tables table_size : Nat) (σ : Store)
    (shuffledAddrs : List Nat) : Store × List Nat :=
  assignSeatsStore σ (deal num_tables table_size shuffledAddrs)

/-- `assignOne` only appends cells and writes at fresh addresses: the first
`n` cells survive whenever they were intact before. -/
theorem assignOne_frame (t : Nat) (n : Nat) (acc : Store × List Nat) (p : Nat × Nat)
    (hlen : n ≤ (acc.1).recs.length) :
    n ≤ ((assignOne t acc p).1).recs.length ∧
      ((assignOne t acc p).1).recs.take n = (acc.1).recs.take n := by
  obtain ⟨σ, out⟩ := acc
  have hlen' : n ≤ σ.recs.length := hlen
  constructor
  · simp only [assignOne, Store.alloc, Store.write]
    rw [List.length_set, List.length_set]
    simp
    omega
  · simp only [assignOne, Store.alloc, Store.write]
    have h1 : (σ.recs ++ [σ.read p.2]).take n = σ.recs.take n :=
      List.take_append_of_le_length hlen'
    have hset : ∀ (l : List Record) (r : Record) (i : Nat), n ≤ i →
        (l.set i r).take n = l.take n := by
      intro l r i hi
      apply List.ext_getElem
      · simp [List.length_take, List.length_set]
      · intro j hj1 hj2
        simp only [List.getElem_take, List.getElem_set]
        have : ¬ (i = j) := by
          simp [List.length_take] at hj1
          omega
        simp [this]
    rw [hset _ _ _ (by omega), hset _ _ _ (by omega), h1]

/-- Folding `assignOne` over any member list preserves the first `n`
cells. -/
theorem foldl_assignOne_frame (t : Nat) (n : Nat) :
    ∀ (ps : List (Nat × Nat)) (acc : Store × List Nat),
      n ≤ (acc.1).recs.length →
      n ≤ ((ps.foldl (assignOne t) acc).1).recs.length ∧
        ((ps.foldl (assignOne t) acc).1).recs.take n = (acc.1).recs.take n := by
  intro ps
  induction ps with
  | nil => intro acc h; exact ⟨h, rfl⟩
  | cons p ps ih =>
      intro acc h
      have h1 := assignOne_frame t n acc p h
      have h2 := ih (assignOne t acc p) h1.1
      exact ⟨h2.1, h2.2.trans h1.2⟩

/-- The whole store-level assignment phase preserves the first `n` cells. -/
theorem assignSeatsStore_frame (n : Nat) :
    ∀ (tables : List (Nat × List Nat)) (acc : Store × List Nat),
      n ≤ (acc.1).recs.length →
      n ≤ ((tables.foldl (fun acc t => (t.2.enum).foldl (assignOne t.1) acc) acc).1).recs.length ∧
        ((tables.foldl (fun acc t => (t.2.enum).foldl (assignOne t.1) acc) acc).1).recs.take n =
          (acc.1).recs.take n := by
  intro tables
  induction tables with
  | nil => intro acc h; exact ⟨h, rfl⟩
  | cons t rest ih =>
      intro acc h
      have h1 := foldl_assignOne_frame t.1 n t.2.enum acc h
      have h2 := ih ((t.2.enum).foldl (assignOne t.1) acc) h1.1
      exact ⟨h2.1, h2.2.trans h1.2⟩

/-! ### Concrete rosters for witnesses and counterexamples -/

/-- A roster row carrying only a name, all other columns blank. -/
def mkAttendee (n : String) : Record :=
  { tableNo := none
    seatNo := none
    name := n
    businessTitle := ("")
    city := ("")
    businessLine := ("")
    subBusinessLine := ("")
    division := ("")
    jobLevel := ("")
    gender := ("")
    eweMgmtTeam := ("")
    workshopFacilitator := ("") }

/-- The spec's three-attendee scenario roster. -/
def attendeesABC : List Record :=
  [mkAttendee ("Alice"), mkAttendee ("Bob"), mkAttendee ("Carol")]

/-- A duplicate-free roster whose single name collides with a synthesized
guest label. -/
def rosterGuestClash : List Record :=
  [mkAttendee ("Guest 1")]

/-- Twenty distinct records for the over-capacity scenario. -/
def roster20 : List Record :=
  (List.range 20).map (fun i => mkAttendee (("P") ++ pyStr (i + 1)))

/-- A two-record roster for the overflow witness. -/
def pairAB : List Record :=
  [mkAttendee ("A"), mkAttendee ("B")]

/-- The first component of a pair in `List.enum` is an index. -/
theorem fst_lt_of_mem_enum {α : Type} {p : Nat × α} {l : List α} (h : p ∈ l.enum) :
    p.1 < l.length := by
  rw [List.enum_eq_zip_range] at h
  have := (List.of_mem_zip h).1
  simpa using this

/-! ### The claims -/

/-- C3: for every roster, configuration and shuffle outcome, the plan built
by `create_day2_seating` has exactly `len(R) + num_guests` rows; no record
is lost or gained across guest synthesis, shuffle and dealing. -/
theorem claim_C3 (attendees_df : List Record) (num_guests num_tables table_size : Nat)
    (shuffled : List Record)
    (hshuffle : shuffled.Perm (attendees_df ++ generate_guests num_guests)) :
    (create_day2_seating num_tables table_size shuffled).length =
      attendees_df.length + num_guests := by
  rw [create_length, hshuffle.length_eq]
  simp [generate_guests_length]

/-- Witness for C3: the spec's Alice/Bob/Carol roster with the default
configuration (7 guests, 9 tables of 7). -/
theorem claim_C3_witness :
    (create_day2_seating 9 7 (attendeesABC ++ generate_guests 7)).length =
      attendeesABC.length + 7 :=
  claim_C3 attendeesABC 7 9 7 (attendeesABC ++ generate_guests 7) (List.Perm.refl _)

/-- C10: `generate_guests` is a pure function of the count, returning
exactly `count` rows named `"Guest 1" .. "Guest count"` with
`Business Title = "Guest"`, `Workshop Facilitator = "N"` and every other
column blank; a count of 0 yields the empty DataFrame. -/
theorem claim_C10 (count : Nat) :
    (generate_guests count).length = count ∧
    namesOf (generate_guests count) =
      (List.range count).map (fun i => ("Guest ") ++ pyStr (i + 1)) ∧
    (∀ r ∈ generate_guests count,
      r.businessTitle = ("Guest") ∧ r.workshopFacilitator = ("N") ∧
      r.tableNo = none ∧ r.seatNo = none ∧ r.city = ("") ∧ r.businessLine = ("") ∧
      r.subBusinessLine = ("") ∧ r.division = ("") ∧ r.jobLevel = ("") ∧
      r.gender = ("") ∧ r.eweMgmtTeam = ("")) ∧
    generate_guests 0 = [] := by
  refine ⟨generate_guests_length count, generate_guests_names count, ?_, rfl⟩
  intro r hr
  simp only [generate_guests, List.mem_map] at hr
  obtain ⟨i, _, hri⟩ := hr
  rw [← hri]
  simp [mkGuest]

/-- C6: `verify_seating_plan` runs the duplicate check over the whole plan
before the completeness check: with any repeated name it fails listing the
distinct duplicated names; otherwise with any roster name absent it fails
listing the missing names (guest names are not checked); otherwise it
succeeds. -/
theorem claim_C6 (attendees_df day2_df : List Record) :
    verify_seating_plan attendees_df day2_df =
      if ¬ (namesOf day2_df).Nodup then
        (false, ("Duplicate entries found: ") ++ String.intercalate (", ")
          (pdUnique ((namesOf day2_df).filter (fun n => 1 < (namesOf day2_df).count n))))
      else if ∃ n ∈ namesOf attendees_df, n ∉ namesOf day2_df then
        (false, ("Missing participants from Day 1: ") ++ String.intercalate (", ")
          (pdUnique ((namesOf attendees_df).filter
            (fun n => !((namesOf day2_df).contains n)))))
      else (true, ("Seating plan is valid.")) := by
  by_cases hnd : (namesOf day2_df).Nodup
  · by_cases hex : ∃ n ∈ namesOf attendees_df, n ∉ namesOf day2_df
    · rw [if_neg (not_not_intro hnd), if_pos hex]
      exact verify_missing_branch attendees_df day2_df hnd hex
    · rw [if_neg (not_not_intro hnd), if_neg hex]
      push_neg at hex
      exact verify_success_branch attendees_df day2_df hnd hex
  · rw [if_pos hnd]
    exact verify_dup_branch attendees_df day2_df hnd

/-- C8: after a generation request, the session slot holds the freshly
generated plan exactly when `verify_seating_plan` succeeded on it, and is
cleared to `none` exactly when verification failed — regardless of what the
slot held before. -/
theorem claim_C8 (attendees_df : List Record) (num_tables table_size : Nat)
    (slot : Option (List Record)) (shuffled : List Record) :
    (updateDay2Slot attendees_df num_tables table_size slot shuffled =
        some (create_day2_seating num_tables table_size shuffled) ↔
      (verify_seating_plan attendees_df
        (create_day2_seating num_tables table_size shuffled)).1 = true) ∧
    (updateDay2Slot attendees_df num_tables table_size slot shuffled = none ↔
      (verify_seating_plan attendees_df
        (create_day2_seating num_tables table_size shuffled)).1 = false) := by
  rw [updateDay2Slot]
  rcases hv : (verify_seating_plan attendees_df
      (create_day2_seating num_tables table_size shuffled)).1 with _ | _
  · simp [hv]
  · simp [hv]

/-- C9: `create_day2_seating` never mutates the stored roster rows: in the
heap model every cell that existed before the call holds the same row
afterwards — the loop writes only to the fresh cells made by `.copy()`. -/
theorem claim_C9 (num_tables table_size : Nat) (σ : Store) (shuffledAddrs : List Nat) :
    ((create_day2_seating_store num_tables table_size σ shuffledAddrs).1).recs.take
      σ.recs.length = σ.recs := by
  have h := assignSeatsStore_frame σ.recs.length
    (deal num_tables table_size shuffledAddrs) (σ, []) (le_refl _)
  rw [create_day2_seating_store, assignSeatsStore]
  rw [h.2]
  exact List.take_of_length_le (le_refl _)

/-- C5: within each table of the plan, the seat numbers are exactly
`1..k` in the order the rows were dealt into that table — the plan's rows
for table `t` are the dealt members in order, seat-numbered from 1 with no
gap or repeat. -/
theorem claim_C5 (num_tables table_size : Nat) (shuffled : List Record) (t : Nat) :
    ((create_day2_seating num_tables table_size shuffled).filter
        (fun r => r.tableNo == some t)) =
      (dictGet (deal num_tables table_size shuffled) t).enum.map
        (fun p => { p.2 with tableNo := some t, seatNo := some (p.1 + 1) }) ∧
    ((create_day2_seating num_tables table_size shuffled).filter
        (fun r => r.tableNo == some t)).map (fun r => r.seatNo) =
      (List.range (dictGet (deal num_tables table_size shuffled) t).length).map
        (fun i => some (i + 1)) := by
  rw [create_day2_seating]
  have h1 := assignSeats_filter (deal num_tables table_size shuffled)
    (deal_keys_nodup num_tables table_size shuffled) t
  refine ⟨h1, ?_⟩
  rw [h1, List.map_map]
  have e1 : ((fun r : Record => r.seatNo) ∘ fun p : Nat × Record =>
      { p.2 with tableNo := some t, seatNo := some (p.1 + 1) }) =
      ((fun i => some (i + 1)) ∘ Prod.fst) := rfl
  rw [e1, ← List.map_map, List.enum_map_fst]

/-- C4: when `len(R) + num_guests ≤ num_tables * table_size`, every dealt
table holds at most `table_size` rows with its key in `[1, num_tables]`,
and every plan row carries a table number in `[1, num_tables]` and a seat
number in `[1, table_size]`. -/
theorem claim_C4 (attendees_df : List Record) (num_guests num_tables table_size : Nat)
    (shuffled : List Record)
    (hshuffle : shuffled.Perm (attendees_df ++ generate_guests num_guests))
    (hcap : attendees_df.length + num_guests ≤ num_tables * table_size) :
    (∀ p ∈ deal num_tables table_size shuffled,
      p.2.length ≤ table_size ∧ 1 ≤ p.1 ∧ p.1 ≤ num_tables) ∧
    (∀ r ∈ create_day2_seating num_tables table_size shuffled,
      (∃ k, r.tableNo = some k ∧ 1 ≤ k ∧ k ≤ num_tables) ∧
      (∃ s, r.seatNo = some s ∧ 1 ≤ s ∧ s ≤ table_size)) := by
  have hlen : shuffled.length ≤ num_tables * table_size := by
    rw [hshuffle.length_eq]
    simp only [List.length_append, generate_guests_length]
    exact hcap
  have hb := deal_bounds num_tables table_size shuffled hlen
  refine ⟨hb, ?_⟩
  intro r hr
  rw [create_day2_seating] at hr
  rcases mem_assignSeats.mp hr with ⟨tt, htt, p, hp, hrp⟩
  have hbt := hb tt htt
  have hplen : p.1 < tt.2.length := fst_lt_of_mem_enum hp
  constructor
  · exact ⟨tt.1, by rw [hrp], hbt.2.1, hbt.2.2⟩
  · exact ⟨p.1 + 1, by rw [hrp], by omega, by omega⟩

/-- Witness for C4: the Alice/Bob/Carol roster under the default
configuration, which is below capacity (10 ≤ 63). -/
theorem claim_C4_witness :
    (∀ p ∈ deal 9 7 (attendeesABC ++ generate_guests 7),
      p.2.length ≤ 7 ∧ 1 ≤ p.1 ∧ p.1 ≤ 9) ∧
    (∀ r ∈ create_day2_seating 9 7 (attendeesABC ++ generate_guests 7),
      (∃ k, r.tableNo = some k ∧ 1 ≤ k ∧ k ≤ 9) ∧
      (∃ s, r.seatNo = some s ∧ 1 ≤ s ∧ s ≤ 7)) :=
  claim_C4 attendeesABC 7 9 7 (attendeesABC ++ generate_guests 7)
    (List.Perm.refl _) (by decide)

/-- C2 counterexample: the roster `[ "Guest 1" ]` has no duplicate names,
yet `create_day2_seating` followed by `verify_seating_plan` fails, because
the synthesized guest labelled `"Guest 1"` collides with the roster name —
the guest labels are not guaranteed distinct from roster names. -/
theorem claim_C2_counterexample :
    (namesOf rosterGuestClash).Nodup ∧
    (verify_seating_plan rosterGuestClash
      (create_day2_seating 9 7 (rosterGuestClash ++ generate_guests 7))).1 = false := by
  constructor
  · decide
  · decide

/-- C2 amended: if additionally no roster name equals one of the
synthesized guest labels, then for every configuration and every shuffle
outcome `create_day2_seating` followed by `verify_seating_plan`
succeeds. -/
theorem claim_C2_amended (attendees_df : List Record)
    (num_guests num_tables table_size : Nat) (shuffled : List Record)
    (hshuffle : shuffled.Perm (attendees_df ++ generate_guests num_guests))
    (hnodup : (namesOf attendees_df).Nodup)
    (hdisj : ∀ n ∈ namesOf attendees_df, n ∉ namesOf (generate_guests num_guests)) :
    verify_seating_plan attendees_df
      (create_day2_seating num_tables table_size shuffled) =
      (true, ("Seating plan is valid.")) := by
  have h3 : namesOf (attendees_df ++ generate_guests num_guests) =
      namesOf attendees_df ++ namesOf (generate_guests num_guests) := by
    simp [namesOf]
  have hperm : (namesOf (create_day2_seating num_tables table_size shuffled)).Perm
      (namesOf attendees_df ++ namesOf (generate_guests num_guests)) := by
    have h1 := namesOf_create_perm num_tables table_size shuffled
    have h2 : (namesOf shuffled).Perm
        (namesOf (attendees_df ++ generate_guests num_guests)) := by
      simpa [namesOf] using hshuffle.map (fun r : Record => r.name)
    rw [h3] at h2
    exact h1.trans h2
  have hnd : (namesOf (create_day2_seating num_tables table_size shuffled)).Nodup := by
    rw [hperm.nodup_iff]
    exact List.Nodup.append hnodup (generate_guests_names_nodup num_guests)
      (fun n hn hgn => hdisj n hn hgn)
  apply verify_success_branch _ _ hnd
  intro n hn
  apply hperm.mem_iff.mpr
  exact List.mem_append_left _ hn

/-- Witness for the amended C2: the Alice/Bob/Carol roster, whose names are
distinct and avoid every guest label, verifies successfully — the spec's
first scenario. -/
theorem claim_C2_witness :
    verify_seating_plan attendeesABC
      (create_day2_seating 9 7 (attendeesABC ++ generate_guests 7)) =
      (true, ("Seating plan is valid.")) :=
  claim_C2_amended attendeesABC 7 9 7 (attendeesABC ++ generate_guests 7)
    (List.Perm.refl _) (by decide) (by decide)

/-- C1 counterexample: in the spec's 20-record scenario (`num_guests = 0`,
`num_tables = 2`, `table_size = 5`) the plan deals all 20 records, but
table 2 ends with exactly 5 occupants — it does NOT receive extra occupants
beyond `table_size` as the claim states. -/
theorem claim_C1_counterexample :
    (namesOf roster20).Nodup ∧
    (create_day2_seating 2 5 roster20).length = 20 ∧
    ¬ (5 < ((create_day2_seating 2 5 roster20).filter
        (fun r => r.tableNo == some 2)).length) := by
  refine ⟨by decide, by decide, by decide⟩

/-- C1 amended: in the over-capacity scenario the wraparound sends ALL
overflow to table 1: for every shuffle outcome of the 20 unique records
with `num_guests = 0`, `num_tables = 2`, `table_size = 5`, all 20 records
are dealt and none dropped, but table 1 ends with 15 occupants and table 2
with exactly its nominal 5. -/
theorem claim_C1_amended (shuffled : List Record)
    (hshuffle : shuffled.Perm (roster20 ++ generate_guests 0)) :
    (create_day2_seating 2 5 shuffled).length = 20 ∧
    (∀ r ∈ roster20, r.name ∈ namesOf (create_day2_seating 2 5 shuffled)) ∧
    ((create_day2_seating 2 5 shuffled).filter
      (fun r => r.tableNo == some 1)).length = 15 ∧
    ((create_day2_seating 2 5 shuffled).filter
      (fun r => r.tableNo == some 2)).length = 5 := by
  have hbase : (roster20 ++ generate_guests 0).length = 20 := by decide
  have hlen20 : shuffled.length = 20 := by
    rw [hshuffle.length_eq]
    exact hbase
  have hover : 2 * 5 < shuffled.length := by omega
  have hdeal := deal_overflow 2 5 (by omega) (by omega) shuffled hover
  have hkeys := deal_keys_nodup 2 5 shuffled
  have hfilter1 := assignSeats_filter (deal 2 5 shuffled) hkeys 1
  have hfilter2 := assignSeats_filter (deal 2 5 shuffled) hkeys 2
  have hget1 : dictGet (deal 2 5 shuffled) 1 = shuffled.take 5 ++ shuffled.drop 10 := by
    rw [hdeal, dictGet, if_pos rfl]
  have hget2 : dictGet (deal 2 5 shuffled) 2 = (shuffled.drop 5).take 5 := by
    rw [hdeal]
    simp only [List.range_succ, List.range_zero, List.nil_append, List.map_cons,
      List.map_nil, Nat.zero_add, Nat.one_mul]
    rw [dictGet, if_neg (by omega)]
    rw [dictGet, if_pos rfl]
  refine ⟨?_, ?_, ?_, ?_⟩
  · rw [create_length]
    exact hlen20
  · intro r hr
    have h1 : r.name ∈ namesOf shuffled := by
      apply (hshuffle.map (fun r => r.name)).symm.mem_iff.mp
      have : r.name ∈ namesOf roster20 := List.mem_map_of_mem (fun r => r.name) hr
      simpa [namesOf] using List.mem_append_left (namesOf (generate_guests 0)) this
    exact (namesOf_create_perm 2 5 shuffled).symm.mem_iff.mp h1
  · rw [create_day2_seating, hfilter1, List.length_map, List.enum_length, hget1]
    rw [List.length_append, List.length_take, List.length_drop]
    omega
  · rw [create_day2_seating, hfilter2, List.length_map, List.enum_length, hget2]
    rw [List.length_take, List.length_drop]
    omega

/-- Witness for the amended C1 at the identity shuffle. -/
theorem claim_C1_witness :
    (create_day2_seating 2 5 roster20).length = 20 ∧
    (∀ r ∈ roster20, r.name ∈ namesOf (create_day2_seating 2 5 roster20)) ∧
    ((create_day2_seating 2 5 roster20).filter
      (fun r => r.tableNo == some 1)).length = 15 ∧
    ((create_day2_seating 2 5 roster20).filter
      (fun r => r.tableNo == some 2)).length = 5 :=
  claim_C1_amended roster20 (by simp [generate_guests])

/-- C7: beyond capacity, every record after the first
`num_tables * table_size` is appended to table 1 — table 1 holds its
nominal first block plus the entire overflow — while tables
`2 .. num_tables` keep exactly `table_size` occupants. -/
theorem claim_C7 (attendees_df : List Record)
    (num_guests num_tables table_size : Nat) (shuffled : List Record)
    (hshuffle : shuffled.Perm (attendees_df ++ generate_guests num_guests))
    (hts : 0 < table_size) (hnt : 1 ≤ num_tables)
    (hover : num_tables * table_size < attendees_df.length + num_guests) :
    dictGet (deal num_tables table_size shuffled) 1 =
      shuffled.take table_size ++ shuffled.drop (num_tables * table_size) ∧
    ∀ k, 2 ≤ k → k ≤ num_tables →
      (dictGet (deal num_tables table_size shuffled) k).length = table_size := by
  have hlen : shuffled.length = attendees_df.length + num_guests := by
    rw [hshuffle.length_eq]
    simp [generate_guests_length]
  have hover' : num_tables * table_size < shuffled.length := by omega
  have hdeal := deal_overflow num_tables table_size hts hnt shuffled hover'
  constructor
  · rw [hdeal, dictGet, if_pos rfl]
  · intro k h2k hknt
    have hmem : (k, (shuffled.drop ((k - 1) * table_size)).take table_size) ∈
        deal num_tables table_size shuffled := by
      rw [hdeal]
      apply List.mem_cons_of_mem
      rw [List.mem_map]
      refine ⟨k - 2, ?_, ?_⟩
      · rw [List.mem_range]
        omega
      · have e1 : k - 2 + 2 = k := by omega
        have e2 : k - 2 + 1 = k - 1 := by omega
        rw [e1, e2]
    have hget := dictGet_of_mem _ k _ hmem (deal_keys_nodup num_tables table_size shuffled)
    rw [hget, List.length_take, List.length_drop]
    have hk1 : (k - 1) * table_size + table_size ≤ num_tables * table_size := by
      have e3 : (k - 1) * table_size + table_size = k * table_size := by
        have e4 : k = (k - 1) + 1 := by omega
        conv_rhs => rw [e4]
        rw [Nat.succ_mul]
      rw [e3]
      exact Nat.mul_le_mul_right table_size hknt
    omega

/-- Witness for C7: two records, one table of one seat — the second record
overflows onto table 1. -/
theorem claim_C7_witness :
    dictGet (deal 1 1 (pairAB ++ generate_guests 0)) 1 =
      (pairAB ++ generate_guests 0).take 1 ++ (pairAB ++ generate_guests 0).drop (1 * 1) ∧
    ∀ k, 2 ≤ k → k ≤ 1 →
      (dictGet (deal 1 1 (pairAB ++ generate_guests 0)) k).length = 1 :=
  claim_C7 pairAB 0 1 1 (pairAB ++ generate_guests 0) (List.Perm.refl _)
    (by omega) (by omega) (by decide)
